import Mathlib

/-!
# Music-sheet PDF processor: range builder, splitter, extractor, truncation

A shallow embedding of `pdf_processor.go` and `truncate_json.go`.

Conventions of the embedding.

* Go `int` values (page numbers, page counts) are `Int`s in the 64-bit range.  The
  arithmetic of `createPageRanges` on marker indices (`splitPage + 1`,
  `splitPage - 1`) wraps around as in Go (`wrapInt64`).  The expression `i + 1`
  on a slice position cannot overflow, a slice having at most `2^63 - 1` elements.
* In `pdf_processor.go` Go strings are Lean `String`s (sequences of runes): the
  library calls used there (`strings.ToUpper`, `strings.TrimSpace`,
  `strings.Split` on a one-byte separator, `strings.Contains`) act rune-wise.
  In `truncate_json.go` a Go string is the list of its bytes, because `len` and
  slicing count bytes.
* External tools are oracles collected in `World`; every function that talks
  to the outside returns its value together with the list of invocations it
  made, in order.
-/

namespace MusicSheets

/-! ## Range Builder -/

/-- The call `fmt.Sprintf("%d-%d", a, b)`. -/
def sprintfRange (a b : Int) : String := toString a ++ "-" ++ toString b

/-- Result of a Go `int` operation whose exact value is `x`: the value wrapped around into
the 64-bit two's-complement range. -/
def wrapInt64 (x : Int) : Int := (x + 2 ^ 63) % 2 ^ 64 - 2 ^ 63

/-- Body of `createPageRanges`, with the constructor of a range left open
(`fmt.Sprintf("%d-%d", ·, ·)` in the source).  The loop state is the pair
`(ranges, start)`. -/
def createPageRangesWith {α : Type} (mk : Int → Int → α) (splitPages : List Int)
    (totalPages : Int) : List α :=
  let st := splitPages.foldl
    (fun (st : List α × Int) splitPage =>
      (if splitPage > st.2 then st.1 ++ [mk st.2 (wrapInt64 (splitPage - 1))] else st.1,
        wrapInt64 (splitPage + 1)))
    (([] : List α), (1 : Int))
  if st.2 ≤ totalPages then st.1 ++ [mk st.2 totalPages] else st.1

/-- The function `createPageRanges` of `pdf_processor.go`. -/
def createPageRanges (splitPages : List Int) (totalPages : Int) : List String :=
  createPageRangesWith sprintfRange splitPages totalPages

/-- The numeric content `(start, end)` of the ranges `createPageRanges` formats. -/
def pageRanges (splitPages : List Int) (totalPages : Int) : List (Int × Int) :=
  createPageRangesWith Prod.mk splitPages totalPages

/-- Recursive reading of the loop of `createPageRanges` from cursor `start`. -/
def rangesFrom (start : Int) : List Int → Int → List (Int × Int)
  | [], T => if start ≤ T then [(start, T)] else []
  | p :: ps, T =>
    (if p > start then [(start, wrapInt64 (p - 1))] else []) ++
      rangesFrom (wrapInt64 (p + 1)) ps T

/-- The ranges of the loop from cursor `start` in exact arithmetic. -/
def exactRangesFrom (start : Int) : List Int → Int → List (Int × Int)
  | [], T => if start ≤ T then [(start, T)] else []
  | p :: ps, T =>
    (if p > start then [(start, p - 1)] else []) ++ exactRangesFrom (p + 1) ps T

/-- The largest Go `int`, `math.MaxInt64`. -/
def maxInt64 : Int := 2 ^ 63 - 1

/-- The smallest Go `int`, `math.MinInt64`. -/
def minInt64 : Int := -2 ^ 63

/-- The `k` consecutive page numbers `start, start + 1, ...`. -/
def consecutiveFrom (start : Int) : Nat → List Int
  | 0 => []
  | k + 1 => start :: consecutiveFrom (start + 1) k

/-- The marker list `1, 2, ..., k`. -/
def leadingMarkers (k : Nat) : List Int := consecutiveFrom 1 k

/-! ## Library calls -/

/-- The predicate `unicode.IsSpace`. -/
def unicodeIsSpace (c : Char) : Bool :=
  let n := c.toNat
  n == 0x09 || n == 0x0A || n == 0x0B || n == 0x0C || n == 0x0D || n == 0x20 ||
  n == 0x85 || n == 0xA0 || n == 0x1680 || (0x2000 ≤ n && n ≤ 0x200A) ||
  n == 0x2028 || n == 0x2029 || n == 0x202F || n == 0x205F || n == 0x3000

/-- The call `strings.TrimSpace(s)`: leading and trailing white space removed. -/
def stringsTrimSpace (s : String) : String :=
  ⟨((s.data.dropWhile unicodeIsSpace).reverse.dropWhile unicodeIsSpace).reverse⟩

/-- The rune map `unicode.ToUpper` on the runes that matter for the marker token:
the ASCII letters, and the two non-ASCII runes whose upper case is an ASCII
letter (dotless i, U+0131, and long s, U+017F).  Every other rune is sent by
Go to a rune outside `A..Z`; the model keeps it unchanged. -/
def unicodeToUpper (c : Char) : Char :=
  if 'a' ≤ c ∧ c ≤ 'z' then Char.ofNat (c.toNat - 32)
  else if c = Char.ofNat 0x131 then 'I'
  else if c = Char.ofNat 0x17F then 'S'
  else c

/-- The call `strings.ToUpper(s)`. -/
def stringsToUpper (s : String) : String := ⟨s.data.map unicodeToUpper⟩

/-- Substring test on rune lists: `sub` occurs in `s` at some position. -/
def containsRunes (sub : List Char) : List Char → Bool
  | [] => sub.isEmpty
  | c :: cs => sub.isPrefixOf (c :: cs) || containsRunes sub cs

/-- The call `strings.Contains(s, substr)`. -/
def stringsContains (s substr : String) : Bool := containsRunes substr.data s.data

/-- Blocks of a rune list between occurrences of `sep`. -/
def splitRunes (sep : Char) : List Char → List (List Char)
  | [] => [[]]
  | c :: cs =>
    if c = sep then [] :: splitRunes sep cs
    else
      match splitRunes sep cs with
      | [] => [[c]]
      | b :: bs => (c :: b) :: bs

/-- The call `strings.Split(s, sep)` for a separator of one character. -/
def stringsSplit (s : String) (sep : Char) : List String :=
  (splitRunes sep s.data).map String.mk

/-- The call `strings.TrimSuffix(s, suffix)`. -/
def stringsTrimSuffix (s suffix : String) : String :=
  if suffix.data.isSuffixOf s.data then ⟨s.data.take (s.data.length - suffix.data.length)⟩ else s

/-- The call `filepath.Base(path)` (Unix separators). -/
def filepathBase (path : String) : String :=
  if path.data.isEmpty then "."
  else
    let stripped := (path.data.reverse.dropWhile (· == '/')).reverse
    let last := (stripped.reverse.takeWhile (· != '/')).reverse
    if last.isEmpty then "/" else ⟨last⟩

/-- One step of `filepath.Clean` on the path element `e`, the elements kept so far being
`kept`: an empty element and `.` are dropped; `..` removes the last kept element when there is
one that is not itself `..`, is dropped at the root, and is kept otherwise; any other element
is kept. -/
def cleanStep (rooted : Bool) (kept : List (List Char)) (e : List Char) : List (List Char) :=
  if e = [] ∨ e = ['.'] then kept
  else if e = ['.', '.'] then
    match kept.getLast? with
    | some top => if top = ['.', '.'] then kept ++ [e] else kept.dropLast
    | none => if rooted then kept else kept ++ [e]
  else kept ++ [e]

/-- The call `filepath.Clean(path)` (Unix separators). -/
def filepathClean (path : String) : String :=
  if path.data.isEmpty then "."
  else
    let rooted := path.data.head? == some '/'
    let kept := (splitRunes '/' path.data).foldl (cleanStep rooted) []
    let body := List.intercalate ['/'] kept
    if rooted then ⟨'/' :: body⟩ else if body.isEmpty then "." else ⟨body⟩

/-- The call `filepath.Join(dir, name)`: the non-empty elements joined with the separator,
then cleaned. -/
def filepathJoin (dir name : String) : String :=
  if !dir.data.isEmpty then filepathClean (dir ++ "/" ++ name)
  else if !name.data.isEmpty then filepathClean name
  else ""

/-- A path element that `filepath.Clean` keeps as it is: not empty, without separator, and
neither `.` nor `..`. -/
def plainElement (e : List Char) : Bool :=
  !e.isEmpty && !e.contains '/' && e != ['.'] && e != ['.', '.']

/-- A directory path made of plain elements separated by single separators, with or without
a leading separator, such as `extracted_content`, `out/parts` or `/srv/out`. -/
def plainDirectory (dir : String) : Bool :=
  (splitRunes '/' (if dir.data.head? == some '/' then dir.data.tail else dir.data)).all
    plainElement

/-- The call `fmt.Sprintf("%03d", k)`. -/
def sprintf03d (k : Int) : String :=
  let digits := toString k.natAbs
  if k < 0 then "-" ++ String.mk (List.replicate (2 - digits.length) '0') ++ digits
  else String.mk (List.replicate (3 - digits.length) '0') ++ digits


/-- The class `\s` of the regular expression: tab, newline, form feed, carriage return, space. -/
def reSpace (c : Char) : Bool :=
  c == '\t' || c == '\n' || c == '\x0c' || c == '\r' || c == ' '

/-- The class `\d` of the regular expression. -/
def reDigit (c : Char) : Bool := '0' ≤ c && c ≤ '9'

/-- Match of `Pages:\s+(\d+)` anchored at the head of the input; the result is
the captured digit run. -/
def matchPagesHere (cs : List Char) : Option (List Char) :=
  if "Pages:".data.isPrefixOf cs then
    let rest := cs.drop 6
    let ws := rest.takeWhile reSpace
    let ds := (rest.dropWhile reSpace).takeWhile reDigit
    if ws.isEmpty || ds.isEmpty then none else some ds
  else none

/-- Leftmost match of `Pages:\s+(\d+)`: what `re.FindStringSubmatch` puts in
`matches[1]`; `none` when `len(matches) < 2`. -/
def findPagesSubmatch : List Char → Option (List Char)
  | [] => none
  | c :: cs =>
    match matchPagesHere (c :: cs) with
    | some ds => some ds
    | none => findPagesSubmatch cs

/-- The call `fmt.Sscanf(digits, "%d", &n)` on a run of decimal digits, with `n`
zero beforehand: the value, or `0` left in place when it does not fit 64 bits. -/
def sscanfInt (digits : List Char) : Int :=
  let n : Nat := digits.foldl (fun (acc : Nat) c => acc * 10 + (c.toNat - 48)) 0
  if n < 2 ^ 63 then (n : Int) else 0

/-! ## The outside world -/

/-- An interaction with the outside world. -/
inductive Event where
  /-- Running `exec.Command(args...)`, with `Output()` or `Run()`. -/
  | exec (args : List String)
  /-- The call `os.Stat(path)`. -/
  | stat (path : String)
  /-- The call `ioutil.TempDir("", pattern)`. -/
  | tempDir (pattern : String)
  /-- The call `filepath.Glob(pattern)`. -/
  | glob (pattern : String)
  /-- The call `os.RemoveAll(dir)`. -/
  | removeAll (dir : String)
  deriving DecidableEq, Repr

/-- Outcomes of the interactions with the outside world. -/
structure World where
  /-- Standard output of a command; `none` when the command fails. -/
  exec : List String → Option String
  /-- Size of a file; `none` when `os.Stat` fails. -/
  stat : String → Option Int
  /-- Directory created for the OCR run on a document; `none` on failure. -/
  tempDir : String → Option String
  /-- Sorted matches of a glob pattern; `none` on a malformed pattern. -/
  glob : String → Option (List String)
  /-- Clock reading when the extraction of a document starts. -/
  now : String → Nat

structure ExtractedContent where
  FileName : String
  ExtractedAt : Nat
  Text : String
  PageCount : Int
  FileSize : Int
  deriving DecidableEq, Repr

structure ProcessingResult where
  SourcePDF : String
  SplitFiles : List ExtractedContent
  ProcessingTime : Int
  TotalFiles : Int
  deriving DecidableEq, Repr

/-! ## Marker Scanner -/

/-- The marker-matching loop of `findSplitPages` over the extracted text. -/
def matchSplitPages (text : String) : List Int :=
  (stringsSplit text '\x0c').enum.foldl
    (fun (splitPages : List Int) (ip : Nat × String) =>
      if stringsContains (stringsToUpper ip.2) "SPLITME" then splitPages ++ [(ip.1 : Int) + 1]
      else splitPages)
    []

/-- The function `findSplitPages`. -/
def findSplitPages (w : World) (pdfPath : String) : List Int × List Event :=
  let cmd := ["pdftotext", "-f", "1", "-l", "999", pdfPath, "-"]
  match w.exec cmd with
  | none => ([], [Event.exec cmd])
  | some output => (matchSplitPages output, [Event.exec cmd])

/-! ## Document Splitter -/

/-- Output file of the range at 0-based loop position `i`. -/
def splitOutputFile (outputDir baseName : String) (i : Nat) : String :=
  filepathJoin outputDir (baseName ++ "_part_" ++ sprintf03d ((i : Int) + 1) ++ ".pdf")

/-- Command line of the page-extraction tool. -/
def pdftkCommand (pdfPath pageRange outputFile : String) : List String :=
  ["pdftk", pdfPath, "cat", pageRange, "output", outputFile]

/-- The splitting loop of `splitPDFOnPages` over the computed ranges. -/
def splitRanges (w : World) (pdfPath outputDir baseName : String) (ranges : List String) :
    List String × List Event :=
  ranges.enum.foldl
    (fun (st : List String × List Event) (ir : Nat × String) =>
      let outputFile := splitOutputFile outputDir baseName ir.1
      let cmd := pdftkCommand pdfPath ir.2 outputFile
      match w.exec cmd with
      | none => (st.1, st.2 ++ [Event.exec cmd])
      | some _ => (st.1 ++ [outputFile], st.2 ++ [Event.exec cmd]))
    ([], [])

/-- The function `splitPDFOnPages`. -/
def splitPDFOnPages (w : World) (pdfPath outputDir : String) (splitPages : List Int) :
    List String × List Event :=
  let baseName := stringsTrimSuffix (filepathBase pdfPath) ".pdf"
  let info := ["pdfinfo", pdfPath]
  match w.exec info with
  | none => ([], [Event.exec info])
  | some output =>
    match findPagesSubmatch output.data with
    | none => ([], [Event.exec info])
    | some digits =>
      let totalPages := sscanfInt digits
      let ranges := createPageRanges splitPages totalPages
      let r := splitRanges w pdfPath outputDir baseName ranges
      (r.1, Event.exec info :: r.2)

/-! ## Extractor and OCR fallback -/

/-- The function `countPages`. -/
def countPages (w : World) (pdfPath : String) : Int × List Event :=
  let info := ["pdfinfo", pdfPath]
  match w.exec info with
  | none => (0, [Event.exec info])
  | some output =>
    match findPagesSubmatch output.data with
    | none => (0, [Event.exec info])
    | some digits => (sscanfInt digits, [Event.exec info])

/-- The OCR loop of `extractTextWithOCR` over the image files. -/
def ocrImages (w : World) (imageFiles : List String) : List String × List Event :=
  imageFiles.foldl
    (fun (st : List String × List Event) imageFile =>
      let cmd := ["tesseract", imageFile, "stdout", "-l", "eng"]
      match w.exec cmd with
      | none => (st.1, st.2 ++ [Event.exec cmd])
      | some output =>
        let text := stringsTrimSpace output
        if text ≠ "" then (st.1 ++ [text], st.2 ++ [Event.exec cmd])
        else (st.1, st.2 ++ [Event.exec cmd]))
    ([], [])

/-- Contribution of one image to the OCR text: the trimmed output of a successful call when it
is not empty. -/
def ocrContribution (w : World) (imageFile : String) : Option String :=
  match w.exec ["tesseract", imageFile, "stdout", "-l", "eng"] with
  | none => none
  | some output => if stringsTrimSpace output ≠ "" then some (stringsTrimSpace output) else none

/-- The function `extractTextWithOCR`. -/
def extractTextWithOCR (w : World) (pdfPath : String) : String × List Event :=
  match w.tempDir pdfPath with
  | none => ("", [Event.tempDir "pdf_ocr"])
  | some tempDir =>
    let ppm := ["pdftoppm", "-png", "-r", "300", pdfPath, filepathJoin tempDir "page"]
    match w.exec ppm with
    | none => ("", [Event.tempDir "pdf_ocr", Event.exec ppm, Event.removeAll tempDir])
    | some _ =>
      let pattern := filepathJoin tempDir "page-*.png"
      match w.glob pattern with
      | none =>
        ("", [Event.tempDir "pdf_ocr", Event.exec ppm, Event.glob pattern,
              Event.removeAll tempDir])
      | some imageFiles =>
        let r := ocrImages w imageFiles
        (String.intercalate "\n\n" r.1,
          [Event.tempDir "pdf_ocr", Event.exec ppm, Event.glob pattern] ++ r.2 ++
            [Event.removeAll tempDir])

/-- The function `extractTextFromPDF`.  The test `err == nil && len(...) > 0` reads the
output only when the command succeeded. -/
def extractTextFromPDF (w : World) (pdfPath : String) : ExtractedContent × List Event :=
  let content : ExtractedContent :=
    { FileName := filepathBase pdfPath, ExtractedAt := w.now pdfPath, Text := "",
      PageCount := 0, FileSize := (w.stat pdfPath).getD 0 }
  let cmd := ["pdftotext", pdfPath, "-"]
  let pre := [Event.stat pdfPath, Event.exec cmd]
  let native := w.exec cmd
  if native.isSome && decide ((stringsTrimSpace (native.getD "")).length > 0) then
    let n := countPages w pdfPath
    ({ content with Text := stringsTrimSpace (native.getD ""), PageCount := n.1 }, pre ++ n.2)
  else
    let t := extractTextWithOCR w pdfPath
    let n := countPages w pdfPath
    ({ content with Text := t.1, PageCount := n.1 }, pre ++ t.2 ++ n.2)

/-! ## Result Aggregator -/

/-- The extraction loop of `processPDF` over the split files. -/
def extractAll (w : World) (splitFiles : List String) : List ExtractedContent × List Event :=
  splitFiles.foldl
    (fun (st : List ExtractedContent × List Event) splitFile =>
      let c := extractTextFromPDF w splitFile
      (st.1 ++ [c.1], st.2 ++ c.2))
    ([], [])

/-- The function `processPDF`. -/
def processPDF (w : World) (pdfPath outputDir : String) : ProcessingResult × List Event :=
  let result : ProcessingResult :=
    { SourcePDF := filepathBase pdfPath, SplitFiles := [], ProcessingTime := 0, TotalFiles := 0 }
  let scan := findSplitPages w pdfPath
  if scan.1.length = 0 then (result, scan.2)
  else
    let split := splitPDFOnPages w pdfPath outputDir scan.1
    let ex := extractAll w split.1
    ({ result with SplitFiles := ex.1, TotalFiles := ex.1.length }, scan.2 ++ split.2 ++ ex.2)

/-- A world with a two-page text document without marker, on which every tool succeeds. -/
def plainWorld : World where
  exec := fun args =>
    if args = ["pdftotext", "-f", "1", "-l", "999", "in/a.pdf", "-"] then
      some "first page\x0csecond page\x0c"
    else if args = ["pdfinfo", "in/a.pdf"] then some "Title: a\nPages:          2\n"
    else some "text"
  stat := fun _ => some 1000
  tempDir := fun _ => some "/tmp/pdf_ocr1"
  glob := fun _ => some []
  now := fun _ => 0

/-- A world with a ten-page document whose pages 3 and 7 carry the marker. -/
def markedWorld : World where
  exec := fun args =>
    if args = ["pdftotext", "-f", "1", "-l", "999", "in/b.pdf", "-"] then
      some "a\x0cb\x0c SplitMe \x0cd\x0ce\x0cf\x0cxsplitmex\x0ch\x0ci\x0cj\x0c"
    else if args = ["pdfinfo", "in/b.pdf"] then some "Pages: 10\n"
    else if args = pdftkCommand "in/b.pdf" "4-6" "out/b_part_002.pdf" then none
    else if args = ["pdftotext", "out/b_part_001.pdf", "-"] then some "  \n"
    else if args = ["tesseract", "/tmp/pdf_ocr1/page-2.png", "stdout", "-l", "eng"] then none
    else if args = ["tesseract", "/tmp/pdf_ocr1/page-3.png", "stdout", "-l", "eng"] then some " \n"
    else some " text\n"
  stat := fun _ => some 1000
  tempDir := fun _ => some "/tmp/pdf_ocr1"
  glob := fun _ => some ["/tmp/pdf_ocr1/page-1.png", "/tmp/pdf_ocr1/page-2.png",
    "/tmp/pdf_ocr1/page-3.png", "/tmp/pdf_ocr1/page-4.png"]
  now := fun _ => 0

/-! ## Truncation utility (`truncate_json.go`) -/

/-- A Go string as the list of its bytes. -/
abbrev GoString := List UInt8

/-- The UTF-8 encoding of a text, as `json.Unmarshal` stores it in a Go string. -/
def utf8 (s : String) : GoString := s.data.flatMap String.utf8EncodeChar

/-- A value produced by `json.Unmarshal` into `interface{}`: `nil`, `bool`,
`float64` (its IEEE-754 bit pattern), `string`, `[]interface{}` and
`map[string]interface{}` (the list of its entries, keys distinct). -/
inductive JValue where
  | null
  | bool (b : Bool)
  | number (bits : Nat)
  | string (s : GoString)
  | array (items : List JValue)
  | object (fields : List (GoString × JValue))

/-- The function `truncateString`; `none` is the run-time panic of the slice
expression `s[:maxLength]` on a negative bound. -/
def truncateString (s : GoString) (maxLength : Int) : Option GoString :=
  if (s.length : Int) ≤ maxLength then some s
  else if maxLength < 0 then none
  else some (s.take maxLength.toNat)

mutual
/-- The function `truncateValue`. -/
def truncateValue : JValue → Int → Option JValue
  | .object fields, maxLength => (truncateFields fields maxLength).map JValue.object
  | .array items, maxLength => (truncateItems items maxLength).map JValue.array
  | .string s, maxLength => (truncateString s maxLength).map JValue.string
  | .null, _ => some .null
  | .bool b, _ => some (.bool b)
  | .number x, _ => some (.number x)
/-- The loop of `truncateValue` over the elements of a sequence. -/
def truncateItems : List JValue → Int → Option (List JValue)
  | [], _ => some []
  | item :: rest, maxLength =>
    match truncateValue item maxLength, truncateItems rest maxLength with
    | some v, some vs => some (v :: vs)
    | _, _ => none
/-- The loop of `truncateValue` over the entries of a mapping. -/
def truncateFields : List (GoString × JValue) → Int → Option (List (GoString × JValue))
  | [], _ => some []
  | (key, value) :: rest, maxLength =>
    match truncateValue value maxLength, truncateFields rest maxLength with
    | some v, some vs => some ((key, v) :: vs)
    | _, _ => none
end

/-- A byte that continues a multi-byte UTF-8 character (`10xxxxxx`). -/
def isContinuation (b : UInt8) : Bool := 0x80 ≤ b.toNat && b.toNat < 0xC0

/-- Number of characters of a UTF-8 encoded string. -/
def charCount (s : GoString) : Nat := (s.filter (fun b => !isContinuation b)).length

/-- The first `n` characters of a UTF-8 encoded string. -/
def firstChars : Nat → GoString → GoString
  | _, [] => []
  | n, b :: bs =>
    if isContinuation b then b :: firstChars n bs
    else
      match n with
      | 0 => []
      | m + 1 => b :: firstChars m bs

/-- Reference transform on a string leaf, in the words of the specification:
a leaf of at most `n` characters is unchanged, a longer one is replaced with
its first `n` characters. -/
def truncateStringSpec (s : GoString) (n : Nat) : GoString :=
  if charCount s ≤ n then s else firstChars n s

mutual
/-- Reference transform of the specification: key sets, sequence lengths, order
and non-string leaves are kept, string leaves go through `truncateStringSpec`. -/
def truncateValueSpec : JValue → Nat → JValue
  | .object fields, n => .object (truncateFieldsSpec fields n)
  | .array items, n => .array (truncateItemsSpec items n)
  | .string s, n => .string (truncateStringSpec s n)
  | .null, _ => .null
  | .bool b, _ => .bool b
  | .number x, _ => .number x
/-- Reference transform on the elements of a sequence. -/
def truncateItemsSpec : List JValue → Nat → List JValue
  | [], _ => []
  | item :: rest, n => truncateValueSpec item n :: truncateItemsSpec rest n
/-- Reference transform on the entries of a mapping. -/
def truncateFieldsSpec : List (GoString × JValue) → Nat → List (GoString × JValue)
  | [], _ => []
  | (key, value) :: rest, n => (key, truncateValueSpec value n) :: truncateFieldsSpec rest n
end

/-- A string of ASCII bytes only: every character is one byte. -/
def asciiString (s : GoString) : Bool := s.all (fun b => decide (b.toNat < 0x80))

mutual
/-- Every string leaf of the value holds ASCII bytes only. -/
def asciiOnly : JValue → Bool
  | .object fields => asciiFields fields
  | .array items => asciiItems items
  | .string s => asciiString s
  | .null => true
  | .bool _ => true
  | .number _ => true
/-- Every string leaf under the elements of a sequence holds ASCII bytes only. -/
def asciiItems : List JValue → Bool
  | [] => true
  | item :: rest => asciiOnly item && asciiItems rest
/-- Every string leaf under the entries of a mapping holds ASCII bytes only. -/
def asciiFields : List (GoString × JValue) → Bool
  | [] => true
  | (_, value) :: rest => asciiOnly value && asciiFields rest
end

/-- A text of 126 characters, each `é` (U+00E9, two bytes in UTF-8). -/
def accentedText : String := String.mk (List.replicate 126 'é')

/-- A text of 84 characters, each `€` (U+20AC, three bytes in UTF-8). -/
def euroText : String := String.mk (List.replicate 84 '€')


/-! ## Range Builder: lemmas -/

theorem createPageRangesWith_loop {α : Type} (mk : Int → Int → α) (S : List Int) (T : Int)
    (acc : List α) (start : Int) :
    (let st := S.foldl
        (fun (st : List α × Int) splitPage =>
          (if splitPage > st.2 then st.1 ++ [mk st.2 (wrapInt64 (splitPage - 1))] else st.1,
            wrapInt64 (splitPage + 1)))
        (acc, start)
     if st.2 ≤ T then st.1 ++ [mk st.2 T] else st.1)
      = acc ++ (rangesFrom start S T).map (fun r => mk r.1 r.2) := by
  induction S generalizing acc start with
  | nil => simp only [List.foldl_nil, rangesFrom]; split <;> simp
  | cons p ps ih =>
    simp only [List.foldl_cons, rangesFrom]
    rw [ih]
    split <;> simp

theorem createPageRangesWith_eq {α : Type} (mk : Int → Int → α) (S : List Int) (T : Int) :
    createPageRangesWith mk S T = (rangesFrom 1 S T).map (fun r => mk r.1 r.2) := by
  have h := createPageRangesWith_loop mk S T [] 1
  simpa [createPageRangesWith] using h

theorem pageRanges_eq (S : List Int) (T : Int) : pageRanges S T = rangesFrom 1 S T := by
  simp [pageRanges, createPageRangesWith_eq]

theorem createPageRanges_eq_map (S : List Int) (T : Int) :
    createPageRanges S T = (pageRanges S T).map (fun r => sprintfRange r.1 r.2) := by
  rw [pageRanges_eq]; exact createPageRangesWith_eq _ S T

theorem wrapInt64_eq (x : Int) (h1 : -2 ^ 63 ≤ x) (h2 : x < 2 ^ 63) : wrapInt64 x = x := by
  unfold wrapInt64
  omega

theorem rangesFrom_eq_exact (S : List Int) (T start : Int)
    (hS : ∀ p ∈ S, 1 ≤ p ∧ p < 2 ^ 63 - 1) :
    rangesFrom start S T = exactRangesFrom start S T := by
  induction S generalizing start with
  | nil => rfl
  | cons p ps ih =>
    have hp := hS p (List.mem_cons_self _ _)
    simp only [rangesFrom, exactRangesFrom]
    rw [wrapInt64_eq (p - 1) (by omega) (by omega), wrapInt64_eq (p + 1) (by omega) (by omega),
      ih (p + 1) (fun q hq => hS q (List.mem_cons_of_mem _ hq))]

theorem pageRanges_eq_exact (S : List Int) (T : Int)
    (hS : ∀ p ∈ S, 1 ≤ p ∧ p < 2 ^ 63 - 1) :
    pageRanges S T = exactRangesFrom 1 S T := by
  rw [pageRanges_eq, rangesFrom_eq_exact S T 1 hS]

theorem exactRangesFrom_within (S : List Int) (T start : Int)
    (hS : ∀ p ∈ S, 1 ≤ p ∧ p ≤ T) (h1 : 1 ≤ start) :
    ∀ r ∈ exactRangesFrom start S T, 1 ≤ r.1 ∧ r.1 ≤ r.2 ∧ r.2 ≤ T := by
  induction S generalizing start with
  | nil =>
    intro r hr
    simp only [exactRangesFrom] at hr
    split at hr
    · simp only [List.mem_singleton] at hr; subst hr; simp; omega
    · simp at hr
  | cons p ps ih =>
    intro r hr
    simp only [exactRangesFrom, List.mem_append] at hr
    have hp := hS p (List.mem_cons_self _ _)
    rcases hr with hr | hr
    · split at hr
      · simp only [List.mem_singleton] at hr; subst hr; simp; omega
      · simp at hr
    · exact ih (p + 1) (fun q hq => hS q (List.mem_cons_of_mem _ hq)) (by omega) r hr

theorem exactRangesFrom_lower (S : List Int) (T start : Int)
    (hsorted : S.Pairwise (· < ·)) (hS : ∀ p ∈ S, start ≤ p) :
    ∀ r ∈ exactRangesFrom start S T, start ≤ r.1 := by
  induction S generalizing start with
  | nil =>
    intro r hr
    simp only [exactRangesFrom] at hr
    split at hr
    · simp only [List.mem_singleton] at hr; subst hr; simp
    · simp at hr
  | cons p ps ih =>
    intro r hr
    simp only [exactRangesFrom, List.mem_append] at hr
    have hp := hS p (List.mem_cons_self _ _)
    rw [List.pairwise_cons] at hsorted
    rcases hr with hr | hr
    · split at hr
      · simp only [List.mem_singleton] at hr; subst hr; simp
      · simp at hr
    · have := ih (p + 1) hsorted.2 (fun q hq => by have := hsorted.1 q hq; omega) r hr
      omega

theorem exactRangesFrom_separated (S : List Int) (T start : Int)
    (hsorted : S.Pairwise (· < ·)) (hS : ∀ p ∈ S, start ≤ p) :
    (exactRangesFrom start S T).Pairwise (fun r s => r.2 + 1 < s.1) := by
  induction S generalizing start with
  | nil =>
    simp only [exactRangesFrom]
    split <;> simp
  | cons p ps ih =>
    rw [List.pairwise_cons] at hsorted
    have hps : ∀ q ∈ ps, p + 1 ≤ q := fun q hq => by have := hsorted.1 q hq; omega
    simp only [exactRangesFrom]
    rw [List.pairwise_append]
    refine ⟨by split <;> simp, ih (p + 1) hsorted.2 hps, ?_⟩
    intro a ha b hb
    have hb1 := exactRangesFrom_lower ps T (p + 1) hsorted.2 hps b hb
    split at ha
    · simp only [List.mem_singleton] at ha; subst ha; simp; omega
    · simp at ha

theorem exactRangesFrom_cover (S : List Int) (T start : Int)
    (hsorted : S.Pairwise (· < ·)) (hS : ∀ p ∈ S, start ≤ p ∧ p ≤ T) (q : Int) :
    (start ≤ q ∧ q ≤ T ∧ q ∉ S) ↔ ∃ r ∈ exactRangesFrom start S T, r.1 ≤ q ∧ q ≤ r.2 := by
  induction S generalizing start with
  | nil =>
    simp only [exactRangesFrom]
    split
    · simp
    · simp; omega
  | cons p ps ih =>
    rw [List.pairwise_cons] at hsorted
    have hp := hS p (List.mem_cons_self _ _)
    have hps : ∀ x ∈ ps, p + 1 ≤ x ∧ x ≤ T := fun x hx => by
      have := hsorted.1 x hx
      have := hS x (List.mem_cons_of_mem _ hx)
      omega
    have ih1 := ih (p + 1) hsorted.2 hps
    simp only [exactRangesFrom, List.mem_append, List.mem_cons, not_or]
    constructor
    · rintro ⟨h1, h2, h3, h4⟩
      by_cases hq : q < p
      · refine ⟨(start, p - 1), Or.inl ?_, ?_⟩
        · rw [if_pos (by omega)]; simp
        · simp; omega
      · obtain ⟨r, hr, hr1⟩ := ih1.mp ⟨by omega, h2, h4⟩
        exact ⟨r, Or.inr hr, hr1⟩
    · rintro ⟨r, hr | hr, h1, h2⟩
      · split at hr
        · simp only [List.mem_singleton] at hr; subst hr
          simp only at h1 h2
          refine ⟨h1, by omega, by omega, ?_⟩
          intro hmem
          have := (hps q hmem).1
          omega
        · simp at hr
      · obtain ⟨h3, h4, h5⟩ := ih1.mpr ⟨r, hr, h1, h2⟩
        exact ⟨by omega, h4, by omega, h5⟩

theorem exactRangesFrom_maximal (S : List Int) (T start : Int) :
    ∀ r ∈ exactRangesFrom start S T,
      (r.1 = start ∨ r.1 - 1 ∈ S) ∧ (r.2 = T ∨ r.2 + 1 ∈ S) := by
  induction S generalizing start with
  | nil =>
    intro r hr
    simp only [exactRangesFrom] at hr
    split at hr
    · simp only [List.mem_singleton] at hr; subst hr; simp
    · simp at hr
  | cons p ps ih =>
    intro r hr
    simp only [exactRangesFrom, List.mem_append] at hr
    rcases hr with hr | hr
    · split at hr
      · simp only [List.mem_singleton] at hr; subst hr; simp
      · simp at hr
    · obtain ⟨h1, h2⟩ := ih (p + 1) r hr
      constructor
      · right
        rcases h1 with h1 | h1
        · rw [h1]; simp
        · exact List.mem_cons_of_mem _ h1
      · rcases h2 with h2 | h2
        · exact Or.inl h2
        · exact Or.inr (List.mem_cons_of_mem _ h2)

theorem exactRangesFrom_unique (S : List Int) (T start : Int)
    (hsorted : S.Pairwise (· < ·)) (hS : ∀ p ∈ S, start ≤ p ∧ p ≤ T)
    (q : Int) (r s : Int × Int)
    (hr : r ∈ exactRangesFrom start S T) (hs : s ∈ exactRangesFrom start S T)
    (hrq : r.1 ≤ q ∧ q ≤ r.2) (hsq : s.1 ≤ q ∧ q ≤ s.2) : s = r := by
  by_contra hne
  have hsep := exactRangesFrom_separated S T start hsorted (fun p hp => (hS p hp).1)
  have hsym : Symmetric (fun a b : Int × Int => a.2 + 1 < b.1 ∨ b.2 + 1 < a.1) :=
    fun a b h => h.symm
  have h := List.Pairwise.forall hsym (hsep.imp (fun h => Or.inl h)) hs hr hne
  simp only at h
  omega

theorem exactRangesFrom_nonempty (S : List Int) (T start : Int) :
    ∀ r ∈ exactRangesFrom start S T, r.1 ≤ r.2 := by
  induction S generalizing start with
  | nil =>
    intro r hr
    simp only [exactRangesFrom] at hr
    split at hr
    · simp only [List.mem_singleton] at hr; subst hr; simpa
    · simp at hr
  | cons p ps ih =>
    intro r hr
    simp only [exactRangesFrom, List.mem_append] at hr
    rcases hr with hr | hr
    · split at hr
      · simp only [List.mem_singleton] at hr; subst hr; simp; omega
      · simp at hr
    · exact ih (p + 1) r hr

theorem exactRangesFrom_zero_nil (S : List Int) (start : Int) (h1 : 1 ≤ start)
    (hsorted : S.Pairwise (· < ·)) (hS : ∀ p ∈ S, start ≤ p) :
    exactRangesFrom start S 0 = [] ↔ S = consecutiveFrom start S.length := by
  induction S generalizing start with
  | nil => simp [exactRangesFrom, consecutiveFrom]; omega
  | cons p ps ih =>
    rw [List.pairwise_cons] at hsorted
    have hp := hS p (List.mem_cons_self _ _)
    have hps : ∀ q ∈ ps, p + 1 ≤ q := fun q hq => by have := hsorted.1 q hq; omega
    have ih1 := ih (p + 1) (by omega) hsorted.2 hps
    simp only [exactRangesFrom, List.append_eq_nil, List.length_cons, consecutiveFrom,
      List.cons.injEq]
    rw [ih1]
    constructor
    · rintro ⟨h, h2⟩
      have hps' : p = start := by
        by_contra hne
        rw [if_pos (by omega)] at h
        simp at h
      subst hps'
      exact ⟨rfl, h2⟩
    · rintro ⟨h, h2⟩
      subst h
      exact ⟨by simp, h2⟩

/-! ## Range Builder: claims -/

/-- C1, as stated, fails at the edge of the Go `int` range: with the single marker
`math.MaxInt64` in a document of `math.MaxInt64` pages, `start = splitPage + 1` wraps around to
`math.MinInt64`, so a second range from `MinInt64` to `MaxInt64` is emitted, which contains the
marker and pages outside `1..T`. -/
theorem createPageRanges_wraps_at_maxInt64 :
    createPageRanges [9223372036854775807] 9223372036854775807 =
      ["1-9223372036854775806", "-9223372036854775808-9223372036854775807"] ∧
    pageRanges [maxInt64] maxInt64 = [(1, maxInt64 - 1), (minInt64, maxInt64)] ∧
    ¬ (∀ (S : List Int) (T : Int), 1 ≤ T → T ≤ maxInt64 → S.Pairwise (· < ·) →
        (∀ p ∈ S, 1 ≤ p ∧ p ≤ T) →
        ∀ r ∈ pageRanges S T, ∀ p ∈ S, ¬ (r.1 ≤ p ∧ p ≤ r.2)) := by
  refine ⟨by decide, by decide, ?_⟩
  intro h
  exact h [maxInt64] maxInt64 (by decide) (by decide) (by decide) (by decide)
    (minInt64, maxInt64) (by decide) maxInt64 (by decide) (by decide)

/-- C1, amended: for a strictly ascending marker list `S` with every index in `1..T` and below
the largest Go `int`, the ranges of `createPageRanges S T` are the decimal renderings of the
pairs `pageRanges S T`, which are the maximal contiguous runs of `{1..T} \ S` in ascending
order: each lies within `1..T` and is non-empty, consecutive ranges are separated by at least
one page, a page of `1..T` is covered exactly when it is not a marker and then by exactly one
range, no range contains a marker, and each range starts at page 1 or right after a marker and
ends at page `T` or right before one. -/
theorem createPageRanges_partition (S : List Int) (T : Int)
    (hsorted : S.Pairwise (· < ·)) (hS : ∀ p ∈ S, 1 ≤ p ∧ p ≤ T ∧ p < maxInt64) :
    createPageRanges S T = (pageRanges S T).map (fun r => sprintfRange r.1 r.2) ∧
    (∀ r ∈ pageRanges S T, 1 ≤ r.1 ∧ r.1 ≤ r.2 ∧ r.2 ≤ T) ∧
    (pageRanges S T).Pairwise (fun r s => r.2 + 1 < s.1) ∧
    (∀ q : Int, (1 ≤ q ∧ q ≤ T ∧ q ∉ S) ↔ ∃ r ∈ pageRanges S T, r.1 ≤ q ∧ q ≤ r.2) ∧
    (∀ q : Int, 1 ≤ q → q ≤ T → q ∉ S → ∃! r, r ∈ pageRanges S T ∧ r.1 ≤ q ∧ q ≤ r.2) ∧
    (∀ r ∈ pageRanges S T, ∀ p ∈ S, ¬ (r.1 ≤ p ∧ p ≤ r.2)) ∧
    (∀ r ∈ pageRanges S T, (r.1 = 1 ∨ r.1 - 1 ∈ S) ∧ (r.2 = T ∨ r.2 + 1 ∈ S)) := by
  have hS1 : ∀ p ∈ S, 1 ≤ p ∧ p ≤ T := fun p hp => ⟨(hS p hp).1, (hS p hp).2.1⟩
  have hb : ∀ p ∈ S, 1 ≤ p ∧ p < 2 ^ 63 - 1 := fun p hp => ⟨(hS p hp).1, (hS p hp).2.2⟩
  have hcov := exactRangesFrom_cover S T 1 hsorted hS1
  rw [pageRanges_eq_exact S T hb]
  refine ⟨?_, ?_, ?_, ?_, ?_, ?_, ?_⟩
  · rw [createPageRanges_eq_map, pageRanges_eq_exact S T hb]
  · exact exactRangesFrom_within S T 1 hS1 (le_refl _)
  · exact exactRangesFrom_separated S T 1 hsorted (fun p hp => (hS p hp).1)
  · exact hcov
  · intro q h1 h2 h3
    obtain ⟨r, hr, hr1⟩ := (hcov q).mp ⟨h1, h2, h3⟩
    refine ⟨r, ⟨hr, hr1⟩, ?_⟩
    rintro s ⟨hs, hs1⟩
    exact exactRangesFrom_unique S T 1 hsorted hS1 q r s hr hs hr1 hs1
  · intro r hr p hp hin
    exact ((hcov p).mpr ⟨r, hr, hin⟩).2.2 hp
  · exact exactRangesFrom_maximal S T 1

/-- Witness for the amended C1: a ten-page document with markers on pages 3 and 7 gives "1-2",
"4-6", "8-10". -/
theorem createPageRanges_partition_witness :
    createPageRanges [3, 7] 10 = ["1-2", "4-6", "8-10"] ∧
    pageRanges [3, 7] 10 = [(1, 2), (4, 6), (8, 10)] ∧
    (∀ q : Int, (1 ≤ q ∧ q ≤ 10 ∧ q ∉ [(3 : Int), 7]) ↔
      ∃ r ∈ pageRanges [3, 7] 10, r.1 ≤ q ∧ q ≤ r.2) :=
  ⟨by decide, by decide,
    (createPageRanges_partition [3, 7] 10 (by decide) (by decide)).2.2.2.1⟩

/-- C2, as stated, fails: with a marker on page 5 of a three-page document the single range is
"1-4", whose end exceeds the page count; and with the marker `math.MaxInt64` the cursor wraps
around, so a range starting at `math.MinInt64`, below page 1, is emitted. -/
theorem createPageRanges_end_exceeds_total :
    createPageRanges [5] 3 = ["1-4"] ∧ pageRanges [5] 3 = [(1, 4)] ∧
    pageRanges [maxInt64] maxInt64 = [(1, maxInt64 - 1), (minInt64, maxInt64)] ∧
    ¬ (∀ (S : List Int) (T : Int), S.Pairwise (· < ·) → (∀ p ∈ S, 1 ≤ p) →
        ∀ r ∈ pageRanges S T, 1 ≤ r.1 ∧ r.1 ≤ r.2 ∧ r.2 ≤ T) := by
  refine ⟨by decide, by decide, by decide, ?_⟩
  intro h
  have h1 := h [5] 3 (by decide) (by decide) (1, 4) (by decide)
  omega

/-- C2, amended: for a list of marker indices that all lie in `1..totalPages` and below the
largest Go `int`, every range `(start, end)` emitted by `createPageRanges` satisfies
`1 ≤ start ≤ end ≤ totalPages`. -/
theorem createPageRanges_bounds (S : List Int) (T : Int)
    (hS : ∀ p ∈ S, 1 ≤ p ∧ p ≤ T ∧ p < maxInt64) :
    createPageRanges S T = (pageRanges S T).map (fun r => sprintfRange r.1 r.2) ∧
    ∀ r ∈ pageRanges S T, 1 ≤ r.1 ∧ r.1 ≤ r.2 ∧ r.2 ≤ T := by
  have hS1 : ∀ p ∈ S, 1 ≤ p ∧ p ≤ T := fun p hp => ⟨(hS p hp).1, (hS p hp).2.1⟩
  have hb : ∀ p ∈ S, 1 ≤ p ∧ p < 2 ^ 63 - 1 := fun p hp => ⟨(hS p hp).1, (hS p hp).2.2⟩
  refine ⟨createPageRanges_eq_map S T, ?_⟩
  rw [pageRanges_eq_exact S T hb]
  exact exactRangesFrom_within S T 1 hS1 (le_refl _)

/-- Witness for the amended C2. -/
theorem createPageRanges_bounds_witness :
    pageRanges [2, 2, 5] 6 = [(1, 1), (3, 4), (6, 6)] ∧
    ∀ r ∈ pageRanges [2, 2, 5] 6, 1 ≤ r.1 ∧ r.1 ≤ r.2 ∧ r.2 ≤ 6 :=
  ⟨by decide, (createPageRanges_bounds [2, 2, 5] 6 (by decide)).2⟩

/-- C7, as stated, fails: with a marker on page 3 and a total page count of zero the range
"1-2" is still emitted; and with the marker `math.MaxInt64` the cursor wraps around to
`math.MinInt64`, so even the trailing range, from `MinInt64` to 0, is emitted. -/
theorem createPageRanges_zero_total_nonempty :
    createPageRanges [3] 0 = ["1-2"] ∧
    pageRanges [maxInt64] 0 = [(1, maxInt64 - 1), (minInt64, 0)] ∧
    ¬ (∀ S : List Int, S.Pairwise (· < ·) → (∀ p ∈ S, 1 ≤ p) → createPageRanges S 0 = []) := by
  refine ⟨by decide, by decide, ?_⟩
  intro h
  have h1 := h [3] (by decide) (by decide)
  revert h1
  decide

/-- C7, amended: with a total page count of zero and marker indices below the largest Go
`int`, `createPageRanges` emits no trailing range, so every range it returns ends right before
a marker; for a strictly ascending list of such 1-based marker indices the result is empty
exactly when the markers are the leading pages `1, 2, ..., k` (in particular when there is no
marker). -/
theorem createPageRanges_zero_total (S : List Int)
    (hsorted : S.Pairwise (· < ·)) (hS : ∀ p ∈ S, 1 ≤ p ∧ p < maxInt64) :
    createPageRanges S 0 = (pageRanges S 0).map (fun r => sprintfRange r.1 r.2) ∧
    (∀ r ∈ pageRanges S 0, r.2 + 1 ∈ S) ∧
    (createPageRanges S 0 = [] ↔ S = leadingMarkers S.length) := by
  have hS1 : ∀ p ∈ S, 1 ≤ p := fun p hp => (hS p hp).1
  have hb : ∀ p ∈ S, 1 ≤ p ∧ p < 2 ^ 63 - 1 := hS
  refine ⟨createPageRanges_eq_map S 0, ?_, ?_⟩
  · rw [pageRanges_eq_exact S 0 hb]
    intro r hr
    rcases (exactRangesFrom_maximal S 0 1 r hr).2 with h | h
    · exfalso
      have hlow := exactRangesFrom_lower S 0 1 hsorted hS1 r hr
      have hne := exactRangesFrom_nonempty S 0 1 r hr
      omega
    · exact h
  · rw [createPageRanges_eq_map, List.map_eq_nil_iff, pageRanges_eq_exact S 0 hb]
    exact exactRangesFrom_zero_nil S 1 (le_refl _) hsorted hS1

/-- Witness for the amended C7. -/
theorem createPageRanges_zero_total_witness :
    createPageRanges [1, 2, 3] 0 = [] ∧ createPageRanges [1, 3] 0 = ["2-2"] ∧
    (createPageRanges [1, 2, 3] 0 = [] ↔ [1, 2, 3] = leadingMarkers 3) :=
  ⟨by decide, by decide, (createPageRanges_zero_total [1, 2, 3] (by decide) (by decide)).2.2⟩

/-! ## Marker Scanner: lemmas -/

theorem foldl_append_if {α β : Type} (p : α → Bool) (g : α → β) (l : List α) (init : List β) :
    l.foldl (fun acc x => if p x then acc ++ [g x] else acc) init
      = init ++ (l.filter p).map g := by
  induction l generalizing init with
  | nil => simp
  | cons x xs ih =>
    simp only [List.foldl_cons, ih, List.filter_cons]
    by_cases hx : p x <;> simp [hx]

theorem containsRunes_iff (sub s : List Char) : containsRunes sub s = true ↔ sub <:+: s := by
  induction s with
  | nil => simp [containsRunes, List.isEmpty_iff]
  | cons c cs ih =>
    simp only [containsRunes, Bool.or_eq_true, ih, List.isPrefixOf_iff_prefix]
    rw [List.infix_cons_iff]

theorem infix_map_iff {α β : Type} (f : α → β) (t : List β) (l : List α) :
    t <:+: l.map f ↔ ∃ u, u <:+: l ∧ u.map f = t := by
  constructor
  · rintro ⟨a, b, h⟩
    have h1 := h.symm
    rw [List.map_eq_append_iff] at h1
    obtain ⟨l1, l2, hl, h2, _⟩ := h1
    rw [List.map_eq_append_iff] at h2
    obtain ⟨l3, l4, hl1, _, h4⟩ := h2
    exact ⟨l4, ⟨l3, l2, by rw [hl, hl1]⟩, h4⟩
  · rintro ⟨u, hu, rfl⟩
    exact hu.map f

theorem enum_filter_map_sorted {α : Type} (l : List α) (p : Nat × α → Bool) :
    (((l.enum.filter p).map (fun ip => (ip.1 : Int) + 1))).Pairwise (· < ·) := by
  have h1 : ((l.enum.filter p).map Prod.fst).Sublist (l.enum.map Prod.fst) :=
    (List.filter_sublist _).map _
  rw [List.enum_map_fst] at h1
  have h2 : ((l.enum.filter p).map Prod.fst).Pairwise (· < ·) :=
    List.Pairwise.sublist h1 (List.pairwise_lt_range _)
  have h3 : (l.enum.filter p).map (fun ip => (ip.1 : Int) + 1)
      = ((l.enum.filter p).map Prod.fst).map (fun k : Nat => (k : Int) + 1) := by
    simp [List.map_map, Function.comp]
  rw [h3, List.pairwise_map]
  exact h2.imp (fun h => by omega)

theorem splitRunes_ne_nil (sep : Char) (l : List Char) : splitRunes sep l ≠ [] := by
  cases l with
  | nil => simp [splitRunes]
  | cons c cs =>
    simp only [splitRunes]
    split
    · simp
    · split <;> simp

theorem splitRunes_intercalate (sep : Char) (l : List Char) :
    List.intercalate [sep] (splitRunes sep l) = l := by
  induction l with
  | nil => simp [splitRunes, List.intercalate]
  | cons c cs ih =>
    simp only [splitRunes]
    split
    · rename_i h
      subst h
      cases hs : splitRunes c cs with
      | nil => exact absurd hs (splitRunes_ne_nil _ _)
      | cons b bs =>
        rw [hs] at ih
        rw [← ih]
        simp [List.intercalate, List.intersperse]
    · cases hs : splitRunes sep cs with
      | nil => exact absurd hs (splitRunes_ne_nil _ _)
      | cons b bs =>
        rw [hs] at ih
        rw [← ih]
        cases bs <;> simp [List.intercalate, List.intersperse]

theorem splitRunes_no_sep (sep : Char) (l : List Char) :
    ∀ b ∈ splitRunes sep l, sep ∉ b := by
  induction l with
  | nil => simp [splitRunes]
  | cons c cs ih =>
    intro b hb
    simp only [splitRunes] at hb
    split at hb
    · rcases List.mem_cons.mp hb with h | h
      · subst h; simp
      · exact ih b h
    · rename_i hne
      cases hs : splitRunes sep cs with
      | nil => exact absurd hs (splitRunes_ne_nil _ _)
      | cons b0 bs =>
        rw [hs] at hb ih
        simp only at hb
        rcases List.mem_cons.mp hb with h | h
        · subst h
          intro hmem
          rcases List.mem_cons.mp hmem with h1 | h1
          · exact hne h1.symm
          · exact ih b0 (List.mem_cons_self _ _) h1
        · exact ih b (List.mem_cons_of_mem _ h)

theorem matchSplitPages_eq (text : String) :
    matchSplitPages text =
      ((stringsSplit text '\x0c').enum.filter
        (fun ip => stringsContains (stringsToUpper ip.2) "SPLITME")).map
        (fun ip => (ip.1 : Int) + 1) := by
  unfold matchSplitPages
  rw [foldl_append_if (fun ip : Nat × String => stringsContains (stringsToUpper ip.2) "SPLITME")
    (fun ip => (ip.1 : Int) + 1)]
  simp

theorem stringsContains_upper_iff (block : String) :
    stringsContains (stringsToUpper block) "SPLITME" = true ↔
      ∃ word : List Char, word <:+: block.data ∧ word.map unicodeToUpper = "SPLITME".data := by
  unfold stringsContains stringsToUpper
  rw [containsRunes_iff, infix_map_iff]

/-! ## Marker Scanner: claim -/

/-- C5: the index `i` is returned by the marker-matching loop of `findSplitPages` exactly when
`i = k + 1` for a position `k` of the list of form-feed-separated blocks whose block has a
substring equal to "SPLITME" up to letter case (after upper-casing); the returned indices are
strictly ascending.  The blocks are the pieces of the text between form feeds: joined with form
feeds they give the text back and none contains a form feed.  A block containing "splitme",
"SplitMe" or "SPLITME" anywhere is flagged. -/
theorem matchSplitPages_spec (text : String) :
    (∀ i : Int, i ∈ matchSplitPages text ↔
      ∃ (k : Nat) (block : String), i = (k : Int) + 1 ∧
        (stringsSplit text '\x0c')[k]? = some block ∧
        ∃ word : List Char, word <:+: block.data ∧
          word.map unicodeToUpper = "SPLITME".data) ∧
    (matchSplitPages text).Pairwise (· < ·) ∧
    List.intercalate ['\x0c'] ((stringsSplit text '\x0c').map String.data) = text.data ∧
    (∀ b ∈ stringsSplit text '\x0c', '\x0c' ∉ b.data) ∧
    (∀ (k : Nat) (block : String), (stringsSplit text '\x0c')[k]? = some block →
      ("splitme".data <:+: block.data ∨ "SplitMe".data <:+: block.data ∨
        "SPLITME".data <:+: block.data) →
      (k : Int) + 1 ∈ matchSplitPages text) := by
  have hiff : ∀ i : Int, i ∈ matchSplitPages text ↔
      ∃ (k : Nat) (block : String), i = (k : Int) + 1 ∧
        (stringsSplit text '\x0c')[k]? = some block ∧
        ∃ word : List Char, word <:+: block.data ∧
          word.map unicodeToUpper = "SPLITME".data := by
    intro i
    rw [matchSplitPages_eq]
    simp only [List.mem_map, List.mem_filter, List.mem_enum_iff_getElem?,
      stringsContains_upper_iff]
    constructor
    · rintro ⟨⟨k, block⟩, ⟨h1, h2⟩, h3⟩
      exact ⟨k, block, h3.symm, h1, h2⟩
    · rintro ⟨k, block, h1, h2, h3⟩
      exact ⟨(k, block), ⟨h2, h3⟩, h1.symm⟩
  refine ⟨hiff, ?_, ?_, ?_, ?_⟩
  · rw [matchSplitPages_eq]
    exact enum_filter_map_sorted _ _
  · unfold stringsSplit
    rw [List.map_map]
    have : (String.data ∘ String.mk) = id := by funext l; rfl
    rw [this, List.map_id]
    exact splitRunes_intercalate _ _
  · intro b hb
    unfold stringsSplit at hb
    obtain ⟨l, hl, rfl⟩ := List.mem_map.mp hb
    exact splitRunes_no_sep _ _ l hl
  · intro k block hk hw
    rw [hiff]
    refine ⟨k, block, rfl, hk, ?_⟩
    rcases hw with h | h | h
    · exact ⟨_, h, by decide⟩
    · exact ⟨_, h, by decide⟩
    · exact ⟨_, h, by decide⟩

/-- Witness for C5: in a three-block text whose second block holds "xSplitMex", page 2 is
flagged. -/
theorem matchSplitPages_spec_witness :
    matchSplitPages "intro\x0cxSplitMex\x0coutro" = [2] ∧
    ((1 : Nat) : Int) + 1 ∈ matchSplitPages "intro\x0cxSplitMex\x0coutro" :=
  ⟨by decide,
    (matchSplitPages_spec "intro\x0cxSplitMex\x0coutro").2.2.2.2 1 "xSplitMex" (by decide)
      (Or.inr (Or.inl ⟨['x'], ['x'], by decide⟩))⟩

/-! ## Document Splitter: lemmas -/

theorem foldl_collect {α γ : Type} (f : α → Option γ) (ev : α → Event)
    (step : List γ × List Event → α → List γ × List Event)
    (hstep : ∀ st x, step st x = (st.1 ++ (f x).toList, st.2 ++ [ev x]))
    (l : List α) (acc : List γ) (trace : List Event) :
    l.foldl step (acc, trace) = (acc ++ l.filterMap f, trace ++ l.map ev) := by
  induction l generalizing acc trace with
  | nil => simp
  | cons x xs ih =>
    simp only [List.foldl_cons, hstep, ih, List.filterMap_cons, List.map_cons]
    cases hx : f x <;> simp

theorem splitRanges_eq (w : World) (pdfPath outputDir baseName : String) (ranges : List String) :
    splitRanges w pdfPath outputDir baseName ranges =
      ((ranges.enum.filter (fun ir =>
          (w.exec (pdftkCommand pdfPath ir.2 (splitOutputFile outputDir baseName ir.1))).isSome)).map
          (fun ir => splitOutputFile outputDir baseName ir.1),
        ranges.enum.map (fun ir =>
          Event.exec (pdftkCommand pdfPath ir.2 (splitOutputFile outputDir baseName ir.1)))) := by
  unfold splitRanges
  rw [foldl_collect
    (fun ir : Nat × String =>
      (w.exec (pdftkCommand pdfPath ir.2 (splitOutputFile outputDir baseName ir.1))).map
        (fun _ => splitOutputFile outputDir baseName ir.1))
    (fun ir : Nat × String =>
      Event.exec (pdftkCommand pdfPath ir.2 (splitOutputFile outputDir baseName ir.1)))]
  · simp only [List.nil_append, Prod.mk.injEq, and_true]
    induction ranges.enum with
    | nil => simp
    | cons x xs ih =>
      simp only [List.filterMap_cons, List.filter_cons]
      cases hx : w.exec (pdftkCommand pdfPath x.2 (splitOutputFile outputDir baseName x.1)) <;>
        simp [ih]
  · intro st x
    cases hx : w.exec (pdftkCommand pdfPath x.2 (splitOutputFile outputDir baseName x.1)) <;>
      simp [hx]

/-! ## Path cleaning: lemmas -/

theorem splitRunes_append_sep (sep : Char) (a b : List Char) :
    splitRunes sep (a ++ sep :: b) = splitRunes sep a ++ splitRunes sep b := by
  induction a with
  | nil => simp [splitRunes]
  | cons c cs ih =>
    simp only [List.cons_append, splitRunes, List.append_eq]
    by_cases hc : c = sep
    · simp [hc, ih]
    · simp only [hc, if_false]
      rw [ih]
      cases hs : splitRunes sep cs with
      | nil => exact absurd hs (splitRunes_ne_nil _ _)
      | cons x xs => simp

theorem splitRunes_of_not_mem (sep : Char) (l : List Char) (h : sep ∉ l) :
    splitRunes sep l = [l] := by
  induction l with
  | nil => rfl
  | cons c cs ih =>
    have hc : c ≠ sep := fun hc => h (by simp [hc])
    have hcs : sep ∉ cs := fun hm => h (List.mem_cons_of_mem _ hm)
    simp [splitRunes, hc, ih hcs]

theorem cleanStep_plain (rooted : Bool) (kept : List (List Char)) (e : List Char)
    (he : plainElement e = true) : cleanStep rooted kept e = kept ++ [e] := by
  simp only [plainElement, Bool.and_eq_true, Bool.not_eq_true', bne_iff_ne, ne_eq] at he
  obtain ⟨⟨⟨h1, _⟩, h3⟩, h4⟩ := he
  have h1' : e ≠ [] := by
    intro h
    simp [h] at h1
  simp [cleanStep, h1', h3, h4]

theorem foldl_cleanStep_plain (rooted : Bool) (es kept : List (List Char))
    (hes : ∀ e ∈ es, plainElement e = true) :
    es.foldl (cleanStep rooted) kept = kept ++ es := by
  induction es generalizing kept with
  | nil => simp
  | cons e rest ih =>
    rw [List.foldl_cons, cleanStep_plain rooted kept e (hes e (List.mem_cons_self _ _)),
      ih _ (fun x hx => hes x (List.mem_cons_of_mem _ hx))]
    simp

theorem intercalate_cons_cons (sep x z : List Char) (zs : List (List Char)) :
    List.intercalate sep (x :: z :: zs) = x ++ sep ++ List.intercalate sep (z :: zs) := by
  simp [List.intercalate, List.intersperse]

theorem intercalate_append_singleton (sep : List Char) (xs : List (List Char)) (y : List Char)
    (hxs : xs ≠ []) :
    List.intercalate sep (xs ++ [y]) = List.intercalate sep xs ++ sep ++ y := by
  induction xs with
  | nil => exact absurd rfl hxs
  | cons x rest ih =>
    cases rest with
    | nil => simp [List.intercalate, List.intersperse]
    | cons z zs =>
      have ih1 := ih (by simp)
      rw [List.cons_append, List.cons_append, intercalate_cons_cons, ← List.cons_append,
        ih1, intercalate_cons_cons]
      simp [List.append_assoc]

theorem digitChar_ne_slash : ∀ m < 10, Nat.digitChar m ≠ '/' := by decide

theorem toDigitsCore_no_slash (fuel n : Nat) (ds : List Char) (h : '/' ∉ ds) :
    '/' ∉ Nat.toDigitsCore 10 fuel n ds := by
  induction fuel generalizing n ds with
  | zero => simpa [Nat.toDigitsCore] using h
  | succ f ih =>
    have hd : '/' ∉ Nat.digitChar (n % 10) :: ds := by
      intro hm
      rcases List.mem_cons.mp hm with h1 | h1
      · exact digitChar_ne_slash _ (Nat.mod_lt _ (by decide)) h1.symm
      · exact h h1
    simp only [Nat.toDigitsCore]
    split
    · exact hd
    · exact ih _ _ hd

theorem sprintf03d_no_slash (k : Int) : '/' ∉ (sprintf03d k).data := by
  have hrepr : '/' ∉ (toString k.natAbs).data := by
    show '/' ∉ (Nat.repr k.natAbs).data
    simp only [Nat.repr, List.asString]
    exact toDigitsCore_no_slash _ _ [] (by simp)
  unfold sprintf03d
  split
  · simp only [String.data_append, List.mem_append, not_or]
    refine ⟨⟨by decide, ?_⟩, hrepr⟩
    intro hm
    have := List.eq_of_mem_replicate hm
    exact absurd this (by decide)
  · simp only [String.data_append, List.mem_append, not_or]
    refine ⟨?_, hrepr⟩
    intro hm
    have := List.eq_of_mem_replicate hm
    exact absurd this (by decide)


theorem plainElement_no_sep (e : List Char) (he : plainElement e = true) : '/' ∉ e := by
  simp only [plainElement, Bool.and_eq_true, Bool.not_eq_true'] at he
  intro hm
  have := he.1.1.2
  simp [List.contains_iff_exists_mem_beq, hm] at this

theorem clean_plain_elements (rooted : Bool) (skip body n : List Char)
    (hskip : skip = [] ∨ skip = ['/'])
    (hbody : (splitRunes '/' body).all plainElement = true)
    (hn : plainElement n = true) :
    List.intercalate ['/']
        ((splitRunes '/' (skip ++ (body ++ '/' :: n))).foldl (cleanStep rooted) [])
      = body ++ '/' :: n := by
  have hall : ∀ e ∈ splitRunes '/' body ++ [n], plainElement e = true := by
    intro e he
    rcases List.mem_append.mp he with h | h
    · exact List.all_eq_true.mp hbody e h
    · rw [List.mem_singleton.mp h]; exact hn
  have hsplit : splitRunes '/' (body ++ '/' :: n) = splitRunes '/' body ++ [n] := by
    rw [splitRunes_append_sep, splitRunes_of_not_mem '/' n (plainElement_no_sep n hn)]
  have hjoin : List.intercalate ['/'] (splitRunes '/' body ++ [n]) = body ++ '/' :: n := by
    rw [intercalate_append_singleton _ _ _ (splitRunes_ne_nil _ _), splitRunes_intercalate]
    simp
  rcases hskip with h | h
  · subst h
    rw [List.nil_append, hsplit, foldl_cleanStep_plain rooted _ [] hall, List.nil_append, hjoin]
  · subst h
    have h1 : splitRunes '/' (['/'] ++ (body ++ '/' :: n)) =
        [] :: (splitRunes '/' body ++ [n]) := by
      simp [splitRunes, hsplit]
    rw [h1, List.foldl_cons]
    have h2 : cleanStep rooted [] [] = [] := by simp [cleanStep]
    rw [h2, foldl_cleanStep_plain rooted _ [] hall, List.nil_append, hjoin]

theorem filepathJoin_plain (dir name : String) (hdir : plainDirectory dir = true)
    (hname : plainElement name.data = true) :
    filepathJoin dir name = dir ++ "/" ++ name := by
  cases dir with
  | mk d =>
  cases name with
  | mk n =>
  simp only [plainDirectory] at hdir
  simp only at hname
  apply String.ext
  cases d with
  | nil => simp [splitRunes, plainElement] at hdir
  | cons c cs =>
    have hdata : (String.mk (c :: cs) ++ "/" ++ String.mk n).data = c :: (cs ++ '/' :: n) := by
      simp [String.data_append]
    by_cases hc : c = '/'
    · subst hc
      simp only [List.head?_cons, beq_self_eq_true, if_true, List.tail_cons] at hdir
      have hclean := clean_plain_elements true ['/'] cs n (Or.inr rfl) hdir hname
      simp only [filepathJoin, filepathClean, hdata]
      simp only [List.isEmpty_cons, Bool.not_false, if_true, Bool.false_eq_true, if_false,
        List.head?_cons, beq_self_eq_true]
      simp only [List.singleton_append] at hclean
      rw [hclean]
    · have hhead : ((c :: cs).head? == some '/') = false := by simp [hc]
      simp only [hhead, Bool.false_eq_true, if_false] at hdir
      have hclean := clean_plain_elements false [] (c :: cs) n (Or.inl rfl) hdir hname
      simp only [filepathJoin, filepathClean, hdata]
      have hhead' : ((c :: (cs ++ '/' :: n)).head? == some '/') = false := by simp [hc]
      simp only [List.isEmpty_cons, Bool.not_false, if_true, Bool.false_eq_true, if_false,
        hhead']
      simp only [List.nil_append, List.cons_append] at hclean
      rw [hclean]
      simp


theorem partName_plain (baseName : String) (k : Int) (hbase : '/' ∉ baseName.data) :
    plainElement (baseName ++ "_part_" ++ sprintf03d k ++ ".pdf").data = true := by
  have hmem : '_' ∈ (baseName ++ "_part_" ++ sprintf03d k ++ ".pdf").data := by
    simp [String.data_append]
  have hsep : '/' ∉ (baseName ++ "_part_" ++ sprintf03d k ++ ".pdf").data := by
    simp only [String.data_append, List.mem_append, not_or]
    exact ⟨⟨⟨hbase, by decide⟩, sprintf03d_no_slash k⟩, by decide⟩
  generalize (baseName ++ "_part_" ++ sprintf03d k ++ ".pdf").data = l at hmem hsep
  simp only [plainElement, Bool.and_eq_true, Bool.not_eq_true', bne_iff_ne, ne_eq]
  refine ⟨⟨⟨?_, ?_⟩, ?_⟩, ?_⟩
  · cases l with
    | nil => simp at hmem
    | cons c cs => rfl
  · cases hc : l.contains '/' with
    | false => rfl
    | true =>
      exfalso
      apply hsep
      simpa [List.contains_iff_exists_mem_beq] using hc
  · intro h
    rw [h] at hmem
    revert hmem
    decide
  · intro h
    rw [h] at hmem
    revert hmem
    decide

/-! ## Document Splitter: claim -/

/-- C6, as stated, fails on the path: `filepath.Join` cleans its result, so with the output
directory "." the first part is "b_part_001.pdf", not "./b_part_001.pdf", and with "out/" it
is "out/b_part_001.pdf", not "out//b_part_001.pdf". -/
theorem splitRanges_path_is_cleaned :
    (splitRanges markedWorld "in/b.pdf" "." "b" ["1-2"]).1 = ["b_part_001.pdf"] ∧
    (splitRanges markedWorld "in/b.pdf" "out/" "b" ["1-2"]).1 = ["out/b_part_001.pdf"] ∧
    ¬ ((splitRanges markedWorld "in/b.pdf" "." "b" ["1-2"]).1 =
        ["." ++ "/" ++ ("b" ++ "_part_" ++ sprintf03d 1 ++ ".pdf")]) ∧
    ¬ ((splitRanges markedWorld "in/b.pdf" "out/" "b" ["1-2"]).1 =
        ["out/" ++ "/" ++ ("b" ++ "_part_" ++ sprintf03d 1 ++ ".pdf")]) := by
  refine ⟨by decide, by decide, by decide, by decide⟩

/-- C6, amended: for every list of ranges and every outcome of the page-extraction calls, the
splitting loop of `splitPDFOnPages` returns the output paths of exactly the ranges whose call
succeeded, in range order; the number of returned paths plus the number of failed ranges is
the number of ranges; the call is attempted for every range, in order, whatever the earlier
outcomes; the path of the range at 0-based position `i` is
`filepath.Join(outputDir, <baseName>_part_<i+1 as %03d>.pdf)`, whatever the range, which is
`<outputDir>/<baseName>_part_<i+1 as %03d>.pdf` when the output directory is made of plain
elements separated by single separators and the base name has no separator; and
`splitPDFOnPages` returns the result of that loop on the ranges of `createPageRanges` whenever
the info query yields a page count. -/
theorem splitRanges_outputs (w : World) (pdfPath outputDir baseName : String)
    (ranges : List String) :
    (splitRanges w pdfPath outputDir baseName ranges).1 =
      (ranges.enum.filter (fun ir =>
          (w.exec (pdftkCommand pdfPath ir.2
            (splitOutputFile outputDir baseName ir.1))).isSome)).map
        (fun ir => splitOutputFile outputDir baseName ir.1) ∧
    (splitRanges w pdfPath outputDir baseName ranges).1.length +
      (ranges.enum.filter (fun ir =>
          !(w.exec (pdftkCommand pdfPath ir.2
            (splitOutputFile outputDir baseName ir.1))).isSome)).length = ranges.length ∧
    (splitRanges w pdfPath outputDir baseName ranges).2 =
      ranges.enum.map (fun ir =>
        Event.exec (pdftkCommand pdfPath ir.2 (splitOutputFile outputDir baseName ir.1))) ∧
    (∀ i : Nat, splitOutputFile outputDir baseName i =
      filepathJoin outputDir (baseName ++ "_part_" ++ sprintf03d ((i : Int) + 1) ++ ".pdf")) ∧
    (plainDirectory outputDir = true → '/' ∉ baseName.data →
      ∀ i : Nat, splitOutputFile outputDir baseName i =
        outputDir ++ "/" ++ (baseName ++ "_part_" ++ sprintf03d ((i : Int) + 1) ++ ".pdf")) ∧
    (∀ (splitPages : List Int) (output : String) (digits : List Char),
      w.exec ["pdfinfo", pdfPath] = some output →
      findPagesSubmatch output.data = some digits →
      (splitPDFOnPages w pdfPath outputDir splitPages).1 =
        (splitRanges w pdfPath outputDir (stringsTrimSuffix (filepathBase pdfPath) ".pdf")
          (createPageRanges splitPages (sscanfInt digits))).1) := by
  rw [splitRanges_eq]
  refine ⟨rfl, ?_, rfl, fun _ => rfl, ?_, ?_⟩
  · simp only [List.length_map]
    have h := List.length_eq_length_filter_add
      (fun ir : Nat × String => (w.exec (pdftkCommand pdfPath ir.2
            (splitOutputFile outputDir baseName ir.1))).isSome) (l := ranges.enum)
    rw [List.enum_length] at h
    exact h.symm
  · intro hdir hbase i
    unfold splitOutputFile
    exact filepathJoin_plain outputDir _ hdir (partName_plain baseName _ hbase)
  · intro splitPages output digits h1 h2
    simp [splitPDFOnPages, h1, h2]

/-- Witness for the amended C6: on the ten-page document with markers on pages 3 and 7, where
the second extraction fails, the first and third parts are returned under their own sequence
numbers, in the plain directory "out". -/
theorem splitRanges_outputs_witness :
    (splitPDFOnPages markedWorld "in/b.pdf" "out" [3, 7]).1 =
      ["out/b_part_001.pdf", "out/b_part_003.pdf"] ∧
    (splitPDFOnPages markedWorld "in/b.pdf" "out" [3, 7]).1 =
      (splitRanges markedWorld "in/b.pdf" "out" (stringsTrimSuffix (filepathBase "in/b.pdf") ".pdf")
        (createPageRanges [3, 7] (sscanfInt ['1', '0']))).1 ∧
    splitOutputFile "out" "b" 2 = "out" ++ "/" ++ ("b" ++ "_part_" ++ sprintf03d 3 ++ ".pdf") :=
  ⟨by decide,
    (splitRanges_outputs markedWorld "in/b.pdf" "out" "b" ["1-2", "4-6", "8-10"]).2.2.2.2.2
      [3, 7] "Pages: 10\n" ['1', '0'] (by decide) (by decide),
    (splitRanges_outputs markedWorld "in/b.pdf" "out" "b" ["1-2", "4-6", "8-10"]).2.2.2.2.1
      (by decide) (by decide) 2⟩

/-! ## Extractor and OCR fallback: lemmas -/

theorem ocrImages_eq (w : World) (imageFiles : List String) :
    ocrImages w imageFiles =
      (imageFiles.filterMap (ocrContribution w),
        imageFiles.map (fun imageFile =>
          Event.exec ["tesseract", imageFile, "stdout", "-l", "eng"])) := by
  unfold ocrImages
  rw [foldl_collect (ocrContribution w)
    (fun imageFile => Event.exec ["tesseract", imageFile, "stdout", "-l", "eng"])]
  · simp
  · intro st x
    unfold ocrContribution
    cases hx : w.exec ["tesseract", x, "stdout", "-l", "eng"] with
    | none => simp [hx]
    | some output =>
      by_cases ht : stringsTrimSpace output = "" <;> simp [hx, ht]

/-! ## Extractor and OCR fallback: claims -/

/-- C10: when the temporary directory, the rasterization and the listing of the images succeed,
the text returned by `extractTextWithOCR` is the join with "\n\n" of the trimmed outputs of
exactly the images whose OCR call succeeded with a non-empty trimmed output, in image order,
and the OCR call is made for every image; a failed image is skipped.  When rasterization fails
the text is empty. -/
theorem extractTextWithOCR_text (w : World) (pdfPath : String) :
    (∀ (dir : String) (imageFiles : List String),
      w.tempDir pdfPath = some dir →
      (w.exec ["pdftoppm", "-png", "-r", "300", pdfPath, filepathJoin dir "page"]).isSome →
      w.glob (filepathJoin dir "page-*.png") = some imageFiles →
      (extractTextWithOCR w pdfPath).1 =
        String.intercalate "\n\n" (imageFiles.filterMap (fun imageFile =>
          match w.exec ["tesseract", imageFile, "stdout", "-l", "eng"] with
          | none => none
          | some output =>
            if stringsTrimSpace output ≠ "" then some (stringsTrimSpace output) else none)) ∧
      ∀ imageFile ∈ imageFiles,
        Event.exec ["tesseract", imageFile, "stdout", "-l", "eng"] ∈
          (extractTextWithOCR w pdfPath).2) ∧
    (∀ dir : String, w.tempDir pdfPath = some dir →
      w.exec ["pdftoppm", "-png", "-r", "300", pdfPath, filepathJoin dir "page"] = none →
      (extractTextWithOCR w pdfPath).1 = "") := by
  constructor
  · intro dir imageFiles h1 h2 h3
    obtain ⟨out, h2⟩ := Option.isSome_iff_exists.mp h2
    have htext : (extractTextWithOCR w pdfPath).1 =
        String.intercalate "\n\n" (imageFiles.filterMap (ocrContribution w)) := by
      simp [extractTextWithOCR, h1, h2, h3, ocrImages_eq]
    refine ⟨htext, ?_⟩
    intro imageFile hmem
    simp only [extractTextWithOCR, h1, h2, h3, ocrImages_eq]
    simp only [List.mem_append, List.mem_map]
    exact Or.inl (Or.inr ⟨imageFile, hmem, rfl⟩)
  · intro dir h1 h2
    simp [extractTextWithOCR, h1, h2]

/-- Witness for C10: of four images the second fails and the third is blank; the text joins
the first and the fourth. -/
theorem extractTextWithOCR_text_witness :
    (extractTextWithOCR markedWorld "out/b_part_001.pdf").1 = "text\n\ntext" ∧
    (extractTextWithOCR markedWorld "out/b_part_001.pdf").1 =
      String.intercalate "\n\n"
        (["/tmp/pdf_ocr1/page-1.png", "/tmp/pdf_ocr1/page-2.png", "/tmp/pdf_ocr1/page-3.png",
          "/tmp/pdf_ocr1/page-4.png"].filterMap (fun imageFile =>
          match markedWorld.exec ["tesseract", imageFile, "stdout", "-l", "eng"] with
          | none => none
          | some output =>
            if stringsTrimSpace output ≠ "" then some (stringsTrimSpace output) else none)) :=
  ⟨by decide,
    ((extractTextWithOCR_text markedWorld "out/b_part_001.pdf").1 "/tmp/pdf_ocr1"
      ["/tmp/pdf_ocr1/page-1.png", "/tmp/pdf_ocr1/page-2.png", "/tmp/pdf_ocr1/page-3.png",
        "/tmp/pdf_ocr1/page-4.png"] (by decide) (by decide) (by decide)).1⟩


theorem tempDir_not_mem_countPages (w : World) (pdfPath : String) :
    Event.tempDir "pdf_ocr" ∉ (countPages w pdfPath).2 := by
  unfold countPages
  cases h1 : w.exec ["pdfinfo", pdfPath] with
  | none => simp [h1]
  | some output =>
    cases h2 : findPagesSubmatch output.data <;> simp [h1, h2]

theorem tempDir_mem_extractTextWithOCR (w : World) (pdfPath : String) :
    Event.tempDir "pdf_ocr" ∈ (extractTextWithOCR w pdfPath).2 := by
  unfold extractTextWithOCR
  cases h1 : w.tempDir pdfPath with
  | none => simp [h1]
  | some dir =>
    cases h2 : w.exec ["pdftoppm", "-png", "-r", "300", pdfPath, filepathJoin dir "page"] with
    | none => simp [h1, h2]
    | some _ =>
      cases h3 : w.glob (filepathJoin dir "page-*.png") <;> simp [h1, h2, h3]

theorem length_pos_iff_ne_empty (s : String) : s.length > 0 ↔ s ≠ "" := by
  cases s with
  | mk l =>
    cases l with
    | nil => simp [String.length]
    | cons c cs =>
      simp only [String.length, List.length_cons, gt_iff_lt, Nat.zero_lt_succ, true_iff]
      intro h
      have := congrArg String.data h
      simp at this

/-- C4: `extractTextFromPDF` enters the OCR fallback (whose first action is the creation of
the temporary directory "pdf_ocr") exactly when the native extraction failed or its output is
empty after trimming; when the fallback is not entered the native extraction succeeded and the
returned text is its trimmed output, which is not empty. -/
theorem extractTextFromPDF_ocr_iff (w : World) (pdfPath : String) :
    (Event.tempDir "pdf_ocr" ∈ (extractTextFromPDF w pdfPath).2 ↔
      (w.exec ["pdftotext", pdfPath, "-"] = none ∨
        ∃ output, w.exec ["pdftotext", pdfPath, "-"] = some output ∧
          stringsTrimSpace output = "")) ∧
    (Event.tempDir "pdf_ocr" ∈ (extractTextFromPDF w pdfPath).2 →
      (extractTextFromPDF w pdfPath).1.Text = (extractTextWithOCR w pdfPath).1) ∧
    (Event.tempDir "pdf_ocr" ∉ (extractTextFromPDF w pdfPath).2 →
      ∃ output, w.exec ["pdftotext", pdfPath, "-"] = some output ∧
        (extractTextFromPDF w pdfPath).1.Text = stringsTrimSpace output ∧
        (extractTextFromPDF w pdfPath).1.Text ≠ "") := by
  have hc := tempDir_not_mem_countPages w pdfPath
  have ho := tempDir_mem_extractTextWithOCR w pdfPath
  cases hn : w.exec ["pdftotext", pdfPath, "-"] with
  | none =>
    have hmem : Event.tempDir "pdf_ocr" ∈ (extractTextFromPDF w pdfPath).2 := by
      simp [extractTextFromPDF, hn, ho]
    refine ⟨by simp [hmem], ?_, fun h => absurd hmem h⟩
    intro _
    simp [extractTextFromPDF, hn]
  | some output =>
    by_cases ht : stringsTrimSpace output = ""
    · have hmem : Event.tempDir "pdf_ocr" ∈ (extractTextFromPDF w pdfPath).2 := by
        simp [extractTextFromPDF, hn, ht, ho]
      refine ⟨by simp [hmem, ht], ?_, fun h => absurd hmem h⟩
      intro _
      simp [extractTextFromPDF, hn, ht]
    · have hpos : (stringsTrimSpace output).length > 0 := (length_pos_iff_ne_empty _).mpr ht
      have hnot : Event.tempDir "pdf_ocr" ∉ (extractTextFromPDF w pdfPath).2 := by
        simp [extractTextFromPDF, hn, hpos, hc]
      refine ⟨by simp [hnot, ht], fun h => absurd h hnot, ?_⟩
      intro _
      refine ⟨output, rfl, ?_, ?_⟩
      · simp [extractTextFromPDF, hn, hpos]
      · simp [extractTextFromPDF, hn, hpos, ht]

/-- Witness for C4: a split file with a text layer keeps its trimmed native text, and one whose
native output is blank goes through the OCR fallback. -/
theorem extractTextFromPDF_ocr_iff_witness :
    (extractTextFromPDF markedWorld "out/b_part_003.pdf").1.Text = "text" ∧
    Event.tempDir "pdf_ocr" ∈ (extractTextFromPDF markedWorld "out/b_part_001.pdf").2 ∧
    (∃ output, markedWorld.exec ["pdftotext", "out/b_part_003.pdf", "-"] = some output ∧
      (extractTextFromPDF markedWorld "out/b_part_003.pdf").1.Text = stringsTrimSpace output ∧
      (extractTextFromPDF markedWorld "out/b_part_003.pdf").1.Text ≠ "") :=
  ⟨by decide, by decide,
    (extractTextFromPDF_ocr_iff markedWorld "out/b_part_003.pdf").2.2 (by decide)⟩

/-! ## Result Aggregator: claim -/

/-- C3, as stated, fails: on a two-page document without marker page, whose info query reports
two pages and for which the extraction of the whole range "1-2" would succeed, `processPDF`
returns no split file at all rather than one. -/
theorem processPDF_no_marker_no_split :
    (findSplitPages plainWorld "in/a.pdf").1 = [] ∧
    (countPages plainWorld "in/a.pdf").1 = 2 ∧
    createPageRanges [] 2 = ["1-2"] ∧
    (plainWorld.exec (pdftkCommand "in/a.pdf" "1-2" "out/a_part_001.pdf")).isSome = true ∧
    (processPDF plainWorld "in/a.pdf" "out").1.SplitFiles = [] ∧
    ¬ ((processPDF plainWorld "in/a.pdf" "out").1.SplitFiles.length = 1) := by
  refine ⟨by decide, by decide, by decide, by decide, by decide, by decide⟩

/-- C3, amended: when the Marker Scanner returns an empty list, `processPDF` returns at once:
the result names the source, has an empty split-file list and a total of zero, and the only
external invocation is the marker scan (no info query, no page extraction, no text
extraction).  The Range Builder itself does give the single range `[1, T]` for an empty marker
list and `T ≥ 1`, but `processPDF` does not reach it in this case. -/
theorem processPDF_empty_scan (w : World) (pdfPath outputDir : String)
    (h : (findSplitPages w pdfPath).1 = []) :
    processPDF w pdfPath outputDir =
      ({ SourcePDF := filepathBase pdfPath, SplitFiles := [], ProcessingTime := 0,
         TotalFiles := 0 },
        [Event.exec ["pdftotext", "-f", "1", "-l", "999", pdfPath, "-"]]) ∧
    ∀ T : Int, 1 ≤ T → createPageRanges [] T = [sprintfRange 1 T] ∧ pageRanges [] T = [(1, T)] := by
  constructor
  · have htrace : (findSplitPages w pdfPath).2 =
        [Event.exec ["pdftotext", "-f", "1", "-l", "999", pdfPath, "-"]] := by
      unfold findSplitPages
      cases h1 : w.exec ["pdftotext", "-f", "1", "-l", "999", pdfPath, "-"] <;> simp [h1]
    simp [processPDF, h, htrace]
  · intro T hT
    simp [createPageRanges, pageRanges, createPageRangesWith, hT]

/-- Witness for the amended C3. -/
theorem processPDF_empty_scan_witness :
    (findSplitPages plainWorld "in/a.pdf").1 = [] ∧
    processPDF plainWorld "in/a.pdf" "out" =
      ({ SourcePDF := "a.pdf", SplitFiles := [], ProcessingTime := 0, TotalFiles := 0 },
        [Event.exec ["pdftotext", "-f", "1", "-l", "999", "in/a.pdf", "-"]]) :=
  ⟨by decide, (processPDF_empty_scan plainWorld "in/a.pdf" "out" (by decide)).1⟩

/-! ## Truncation utility: lemmas -/

theorem truncateString_idem (s : GoString) (n : Int) (hn : 0 ≤ n) :
    ∃ t, truncateString s n = some t ∧ truncateString t n = some t := by
  unfold truncateString
  by_cases h : (s.length : Int) ≤ n
  · exact ⟨s, by simp [h], by simp [h]⟩
  · refine ⟨s.take n.toNat, by simp [h, not_lt.mpr hn], ?_⟩
    have hlen : ((s.take n.toNat).length : Int) ≤ n := by
      rw [List.length_take]
      omega
    rw [if_pos hlen]

mutual
theorem truncateValue_idem_aux : ∀ (v : JValue) (n : Int), 0 ≤ n →
    ∃ r, truncateValue v n = some r ∧ truncateValue r n = some r
  | .object fields, n, hn => by
    obtain ⟨fs, h1, h2⟩ := truncateFields_idem_aux fields n hn
    exact ⟨.object fs, by simp [truncateValue, h1], by simp [truncateValue, h2]⟩
  | .array items, n, hn => by
    obtain ⟨vs, h1, h2⟩ := truncateItems_idem_aux items n hn
    exact ⟨.array vs, by simp [truncateValue, h1], by simp [truncateValue, h2]⟩
  | .string s, n, hn => by
    obtain ⟨t, h1, h2⟩ := truncateString_idem s n hn
    exact ⟨.string t, by simp [truncateValue, h1], by simp [truncateValue, h2]⟩
  | .null, _, _ => ⟨.null, by simp [truncateValue], by simp [truncateValue]⟩
  | .bool b, _, _ => ⟨.bool b, by simp [truncateValue], by simp [truncateValue]⟩
  | .number x, _, _ => ⟨.number x, by simp [truncateValue], by simp [truncateValue]⟩
theorem truncateItems_idem_aux : ∀ (items : List JValue) (n : Int), 0 ≤ n →
    ∃ r, truncateItems items n = some r ∧ truncateItems r n = some r
  | [], _, _ => ⟨[], by simp [truncateItems], by simp [truncateItems]⟩
  | item :: rest, n, hn => by
    obtain ⟨v, h1, h2⟩ := truncateValue_idem_aux item n hn
    obtain ⟨vs, h3, h4⟩ := truncateItems_idem_aux rest n hn
    exact ⟨v :: vs, by simp [truncateItems, h1, h3], by simp [truncateItems, h2, h4]⟩
theorem truncateFields_idem_aux : ∀ (fields : List (GoString × JValue)) (n : Int), 0 ≤ n →
    ∃ r, truncateFields fields n = some r ∧ truncateFields r n = some r
  | [], _, _ => ⟨[], by simp [truncateFields], by simp [truncateFields]⟩
  | (key, value) :: rest, n, hn => by
    obtain ⟨v, h1, h2⟩ := truncateValue_idem_aux value n hn
    obtain ⟨vs, h3, h4⟩ := truncateFields_idem_aux rest n hn
    exact ⟨(key, v) :: vs, by simp [truncateFields, h1, h3], by simp [truncateFields, h2, h4]⟩
end

/-! ## Truncation utility: claims -/

/-- C9: for every parsed JSON value `v` and every limit `n ≥ 0`, `truncateValue v n` returns a
value `r` (it does not panic), and truncating `r` again with the same limit returns `r`. -/
theorem truncateValue_idempotent (v : JValue) (n : Int) (hn : 0 ≤ n) :
    ∃ r, truncateValue v n = some r ∧ truncateValue r n = some r :=
  truncateValue_idem_aux v n hn

/-- Witness for C9 on a mapping holding a sequence with a long and a short string. -/
theorem truncateValue_idempotent_witness :
    truncateValue (.object [([107], .array [.string [1, 2, 3, 4], .string [5], .number 7])]) 2 =
      some (.object [([107], .array [.string [1, 2], .string [5], .number 7])]) ∧
    ∃ r, truncateValue
        (.object [([107], .array [.string [1, 2, 3, 4], .string [5], .number 7])]) 2 = some r ∧
      truncateValue r 2 = some r :=
  ⟨by simp [truncateValue, truncateFields, truncateItems, truncateString],
    truncateValue_idempotent _ 2 (by decide)⟩

set_option maxRecDepth 100000 in
/-- C8, failing input: a string leaf of 126 characters `é` (252 bytes of UTF-8) is within the
250-character limit, so the reference transform of the specification leaves it unchanged;
`truncateValue` measures bytes and cuts it to its first 250 bytes, that is to 125
characters.  On a leaf of 84 characters `€` (252 bytes) the cut falls inside the last
character: 83 characters and one stray byte remain. -/
theorem truncateValue_cuts_accented_text :
    accentedText.length = 126 ∧
    (utf8 accentedText).length = 252 ∧
    charCount (utf8 accentedText) = 126 ∧
    truncateValueSpec (.string (utf8 accentedText)) 250 = .string (utf8 accentedText) ∧
    truncateValue (.string (utf8 accentedText)) 250 =
      some (.string (utf8 (String.mk (List.replicate 125 'é')))) ∧
    truncateValue (.string (utf8 accentedText)) 250 ≠
      some (truncateValueSpec (.string (utf8 accentedText)) 250) ∧
    truncateValueSpec (.string (utf8 euroText)) 250 = .string (utf8 euroText) ∧
    truncateValue (.string (utf8 euroText)) 250 =
      some (.string (utf8 (String.mk (List.replicate 83 '€')) ++ [0xE2])) := by
  have hspec : truncateValueSpec (.string (utf8 accentedText)) 250 =
      .string (utf8 accentedText) := by
    simp only [truncateValueSpec, JValue.string.injEq]
    decide
  have hcode : truncateValue (.string (utf8 accentedText)) 250 =
      some (.string (utf8 (String.mk (List.replicate 125 'é')))) := by
    simp only [truncateValue, Option.map_eq_some']
    exact ⟨_, by decide, rfl⟩
  refine ⟨by decide, by decide, by decide, hspec, hcode, ?_, ?_, ?_⟩
  · rw [hcode, hspec]
    simp only [ne_eq, Option.some.injEq, JValue.string.injEq]
    decide
  · simp only [truncateValueSpec, JValue.string.injEq]
    decide
  · simp only [truncateValue, Option.map_eq_some']
    exact ⟨_, by decide, rfl⟩

/-! ## Truncation utility: agreement with the reference on ASCII documents -/

theorem charCount_ascii (s : GoString) (h : asciiString s = true) : charCount s = s.length := by
  induction s with
  | nil => rfl
  | cons b bs ih =>
    simp only [asciiString, List.all_cons, Bool.and_eq_true, decide_eq_true_eq] at h
    have hb : isContinuation b = false := by
      simp only [isContinuation, Bool.and_eq_false_imp, decide_eq_true_eq, decide_eq_false_iff_not]
      omega
    have ih1 := ih (by simpa [asciiString] using h.2)
    simp only [charCount, List.filter_cons, hb] at ih1 ⊢
    simp [ih1]

theorem firstChars_ascii (n : Nat) (s : GoString) (h : asciiString s = true) :
    firstChars n s = s.take n := by
  induction s generalizing n with
  | nil => simp [firstChars]
  | cons b bs ih =>
    simp only [asciiString, List.all_cons, Bool.and_eq_true, decide_eq_true_eq] at h
    have hb : isContinuation b = false := by
      simp only [isContinuation, Bool.and_eq_false_imp, decide_eq_true_eq, decide_eq_false_iff_not]
      omega
    have ih1 := fun m => ih m (by simpa [asciiString] using h.2)
    cases n with
    | zero => simp [firstChars, hb]
    | succ m => simp [firstChars, hb, ih1]

theorem truncateString_ascii (s : GoString) (n : Nat) (h : asciiString s = true) :
    truncateString s (n : Int) = some (truncateStringSpec s n) := by
  unfold truncateString truncateStringSpec
  rw [charCount_ascii s h, firstChars_ascii n s h]
  by_cases hle : s.length ≤ n
  · have : (s.length : Int) ≤ (n : Int) := by exact_mod_cast hle
    simp [hle, this]
  · have : ¬ (s.length : Int) ≤ (n : Int) := by exact_mod_cast hle
    simp [hle, this]

mutual
theorem truncateValue_ascii : ∀ (v : JValue) (n : Nat), asciiOnly v = true →
    truncateValue v (n : Int) = some (truncateValueSpec v n)
  | .object fields, n, h => by
    have := truncateFields_ascii fields n (by simpa [asciiOnly] using h)
    simp [truncateValue, truncateValueSpec, this]
  | .array items, n, h => by
    have := truncateItems_ascii items n (by simpa [asciiOnly] using h)
    simp [truncateValue, truncateValueSpec, this]
  | .string s, n, h => by
    have := truncateString_ascii s n (by simpa [asciiOnly] using h)
    simp [truncateValue, truncateValueSpec, this]
  | .null, _, _ => by simp [truncateValue, truncateValueSpec]
  | .bool _, _, _ => by simp [truncateValue, truncateValueSpec]
  | .number _, _, _ => by simp [truncateValue, truncateValueSpec]
theorem truncateItems_ascii : ∀ (items : List JValue) (n : Nat), asciiItems items = true →
    truncateItems items (n : Int) = some (truncateItemsSpec items n)
  | [], _, _ => by simp [truncateItems, truncateItemsSpec]
  | item :: rest, n, h => by
    simp only [asciiItems, Bool.and_eq_true] at h
    have h1 := truncateValue_ascii item n h.1
    have h2 := truncateItems_ascii rest n h.2
    simp [truncateItems, truncateItemsSpec, h1, h2]
theorem truncateFields_ascii : ∀ (fields : List (GoString × JValue)) (n : Nat),
    asciiFields fields = true →
    truncateFields fields (n : Int) = some (truncateFieldsSpec fields n)
  | [], _, _ => by simp [truncateFields, truncateFieldsSpec]
  | (key, value) :: rest, n, h => by
    simp only [asciiFields, Bool.and_eq_true] at h
    have h1 := truncateValue_ascii value n h.1
    have h2 := truncateFields_ascii rest n h.2
    simp [truncateFields, truncateFieldsSpec, h1, h2]
end

end MusicSheets
